import Mathlib

/-!
# Verification of the skeleton-workspace materializer (`cargo-prepare`)

Shallow embedding of `src/main.rs`.

Modelling conventions:
* An absolute filesystem path is a list of its components (`[]` is the root `/`).
  `Path::join` with a relative path is list append, `Path::parent` drops the last
  component (`None` on the root), and `Path::strip_prefix` is component-wise
  removal of a leading base, returning `none` when the base does not lead the path
  (`stripBase`).
* File contents are byte lists.  The filesystem is a structure holding a partial
  map from paths to file bytes and a set of directories.
* `fs::copy` is modelled as: read the source bytes (failing with the code's
  `with_context` message data when the source is absent) and write them to the
  destination, overwriting whatever was there.  `fs::write` unconditionally
  (over)writes.  `fs::create_dir_all` records the directory and all of its
  ancestors and always succeeds; `fs::create_dir` fails when an entry already
  exists at the path or its parent directory is missing.  Other I/O failure modes
  (permissions, disk errors) are outside the model.
* A `.unwrap()` on `None` is a Rust panic: the process aborts carrying no
  operation/path context.  This is the `Err.abortNoContext` outcome.  All
  functions return the failure together with the filesystem state at the moment
  of failure, since an aborted process leaves its writes on disk.
* `anyhow`'s `main` termination turns `Ok` into exit status 0 and any reported
  error into the generic failure status 1; a panic aborts with status 101
  (`exitCode`).
-/

namespace CargoPrepare

/-- An absolute path, as its list of components. -/
abbrev Path := List String

/-- File contents, as a list of bytes. -/
abbrev Bytes := List Nat

/-- A build target of a package (`cargo_metadata::Target`), as used by the code:
only its source entry point `src_path` is read. -/
structure Target where
  src_path : Path
  deriving DecidableEq, Repr

/-- A package (`cargo_metadata::Package`), as used by the code: its `id`, its
`manifest_path` and its build `targets`. -/
structure Package where
  id : String
  manifest_path : Path
  targets : List Target
  deriving DecidableEq, Repr

/-- The workspace metadata graph (`cargo_metadata::Metadata`), as used by the
code: `workspace_root`, the member-id set `workspace_members`, the package list
`packages` and the `target_directory` (the latter is only forwarded to the
launched process's environment). -/
structure Metadata where
  workspace_root : Path
  workspace_members : List String
  packages : List Package
  target_directory : Path
  deriving DecidableEq, Repr

/-- Failure outcomes of a run.  `abortNoContext` is a Rust panic (an `unwrap`
on `None`): the process aborts without any operation or path context.  The
other constructors carry exactly the data the code's `with_context` messages
interpolate. -/
inductive Err where
  | abortNoContext : Err
  | couldNotCopyLock (src dst : Path) : Err
  | couldNotCopyManifest (src dst : Path) : Err
  | couldNotCreateDest (p : Path) : Err
  | couldNotExecuteCargo : Err
  | cargoCommandFailed : Err
  deriving DecidableEq, Repr

/-- The filesystem: a partial map from paths to file bytes, plus the set of
existing directories. -/
structure FS where
  files : Path → Option Bytes
  dirs : Path → Bool

/-- Write bytes `b` at path `p`, overwriting any existing file. -/
def updateFile (fs : FS) (p : Path) (b : Bytes) : FS :=
  { fs with files := fun q => if q = p then some b else fs.files q }

/-- Model of `Path::parent`: drop the final component; `none` for the root. -/
def parent : Path → Option Path
  | [] => none
  | a :: rest => some ((a :: rest).dropLast)

/-- Model of `Path::strip_prefix`: remove the leading components `base` from
`path`, or `none` when `base` does not lead `path`.  (First argument is the
base.) -/
def stripBase : Path → Path → Option Path
  | [], p => some p
  | _ :: _, [] => none
  | a :: base, b :: p => if a = b then stripBase base p else none

/-- Whether `base` is a (not necessarily strict) component-wise ancestor of `p`. -/
def isUnder : Path → Path → Bool
  | [], _ => true
  | _ :: _, [] => false
  | a :: base, b :: p => a == b && isUnder base p

/-- Whether `p` is a strict descendant of `base`. -/
def strictUnder (base p : Path) : Bool :=
  isUnder base p && decide (base.length < p.length)

/-- Model of `fs::create_dir_all`: record the directory and all of its
ancestors.  Always succeeds in the model. -/
def create_dir_all (p : Path) (fs : FS) : FS :=
  { fs with dirs := fun q => fs.dirs q || isUnder q p }

/-- Model of `fs::create_dir`: fails when an entry already exists at `p` or
the parent directory is missing; otherwise records the single new
directory. -/
def create_dir (p : Path) (fs : FS) : Except Err Unit × FS :=
  if fs.dirs p || (fs.files p).isSome then (.error (.couldNotCreateDest p), fs)
  else
    match parent p with
    | none => (.error (.couldNotCreateDest p), fs)
    | some par =>
      if fs.dirs par then
        (.ok (), { fs with dirs := fun q => fs.dirs q || (q == p) })
      else (.error (.couldNotCreateDest p), fs)

/-- The inner `for target in member.targets.iter()` loop of
`initialize_fake_workspace`: for each target, strip the package directory off
`src_path` (`unwrap`: panic on failure), re-root it under the destination
package directory, create the ancestor directories and write a zero-length
file. -/
def processTargets (package_path tmp_package : Path) : List Target → FS → Except Err Unit × FS
  | [], fs => (.ok (), fs)
  | target :: rest, fs =>
    match stripBase package_path target.src_path with
    | none => (.error .abortNoContext, fs)
    | some relative_src_file =>
      let tmp_src_file := tmp_package ++ relative_src_file
      match parent tmp_src_file with
      | none => (.error .abortNoContext, fs)
      | some tmp_src_dir =>
        processTargets package_path tmp_package rest
          (updateFile (create_dir_all tmp_src_dir fs) tmp_src_file [])

/-- One iteration of the `for member in members` loop of
`initialize_fake_workspace`: compute the package directory (`parent`,
`unwrap`), the manifest path relative to the workspace root (`strip_prefix`,
`unwrap`), re-root it under the destination, create the package directory,
copy the manifest and process the targets. -/
def processMember (workspace_root destination : Path) (member : Package) (fs : FS) :
    Except Err Unit × FS :=
  match parent member.manifest_path with
  | none => (.error .abortNoContext, fs)
  | some package_path =>
    match stripBase workspace_root member.manifest_path with
    | none => (.error .abortNoContext, fs)
    | some relative_path =>
      let tmp_manifest := destination ++ relative_path
      match parent tmp_manifest with
      | none => (.error .abortNoContext, fs)
      | some tmp_package =>
        let fs := create_dir_all tmp_package fs
        match fs.files member.manifest_path with
        | none => (.error (.couldNotCopyManifest member.manifest_path tmp_manifest), fs)
        | some bytes =>
          processTargets package_path tmp_package member.targets
            (updateFile fs tmp_manifest bytes)

/-- The `for member in members` loop: process members in sequence, stopping at
the first failure (`?` / panic), keeping the filesystem state reached so far. -/
def processMembers (workspace_root destination : Path) : List Package → FS → Except Err Unit × FS
  | [], fs => (.ok (), fs)
  | member :: rest, fs =>
    match processMember workspace_root destination member fs with
    | (.error e, fs) => (.error e, fs)
    | (.ok _, fs) => processMembers workspace_root destination rest fs

/-- The member filter of `initialize_fake_workspace`: keep the packages whose
`id` is in `workspace_members` (the code materialises the id set as a
`HashSet` before filtering; only membership is used). -/
def membersOf (metadata : Metadata) : List Package :=
  metadata.packages.filter (fun x => metadata.workspace_members.contains x.id)

/-- The function `initialize_fake_workspace`: copy `workspace_root/Cargo.lock`
to `destination/Cargo.lock`, then process every member package. -/
def initialize_fake_workspace (metadata : Metadata) (destination : Path) (fs : FS) :
    Except Err Unit × FS :=
  let lock_file := metadata.workspace_root ++ ["Cargo.lock"]
  let tmp_lock_file := destination ++ ["Cargo.lock"]
  match fs.files lock_file with
  | none => (.error (.couldNotCopyLock lock_file tmp_lock_file), fs)
  | some bytes =>
    processMembers metadata.workspace_root destination (membersOf metadata)
      (updateFile fs tmp_lock_file bytes)

/-- The explicit-destination branch of `main`: `fs::create_dir(destination)`
(failing when the destination already exists), then materialize into it. -/
def main_dest (metadata : Metadata) (destination : Path) (fs : FS) : Except Err Unit × FS :=
  match create_dir destination fs with
  | (.error e, fs) => (.error e, fs)
  | (.ok _, fs) => initialize_fake_workspace metadata destination fs

/-- Result of the forwarding branch of `main`: whether the build tool was
launched (`Command::status` was invoked), the final result, and the
filesystem. -/
structure ForwardResult where
  launched : Bool
  result : Except Err Unit
  fs : FS

/-- The forwarding branch of `main` (no `--dest`): materialize into a fresh
temporary directory; on success launch cargo (`cargoStatus` is the launched
process's exit status, `none` when the process could not be launched) and
`bail!` with a generic error when it exits non-zero.  The `CARGO_TARGET_DIR`
environment override and the forwarded argument list do not influence the
modelled state. -/
def main_forward (metadata : Metadata) (tmpdir : Path) (fs : FS) (cargoStatus : Option Nat) :
    ForwardResult :=
  match initialize_fake_workspace metadata tmpdir fs with
  | (.error e, fs) => ⟨false, .error e, fs⟩
  | (.ok _, fs) =>
    match cargoStatus with
    | none => ⟨true, .error .couldNotExecuteCargo, fs⟩
    | some status =>
      if status = 0 then ⟨true, .ok (), fs⟩ else ⟨true, .error .cargoCommandFailed, fs⟩

/-- Process exit status of a finished run: 0 on success, the generic failure
status 1 for a reported (`anyhow`) error, 101 for a panic. -/
def exitCode : Except Err Unit → Nat
  | .ok _ => 0
  | .error .abortNoContext => 101
  | .error _ => 1

/-- The argument shift at the top of `main`: when the first argument after the
program name is exactly `"prepare"` it is consumed before parsing. -/
def shiftArgs : List String → List String
  | [] => []
  | a :: rest => if a = "prepare" then rest else a :: rest

/-- The full effective argument vector handed to the CLI parser: program name
followed by the (possibly shifted) remaining arguments. -/
def effectiveArgs : List String → List String
  | [] => []
  | command :: args => command :: shiftArgs args

/-! ## Specification-side descriptions of the produced tree -/

/-- Left-biased choice on optional bytes. -/
def orElseOpt (a b : Option Bytes) : Option Bytes :=
  match a with
  | some x => some x
  | none => b

/-- First value associated to a path in an association list. -/
def findVal : List (Path × Bytes) → Path → Option Bytes
  | [], _ => none
  | (k, b) :: rest, q => if q = k then some b else findVal rest q

/-- The destination paths of the zero-length placeholder files of a target
list: for each target whose `src_path` strips against the package directory,
the package's destination directory joined with the stripped remainder. -/
def stubPaths (package_path tmp_package : Path) : List Target → List Path
  | [] => []
  | t :: rest =>
    match stripBase package_path t.src_path with
    | none => stubPaths package_path tmp_package rest
    | some rs => (tmp_package ++ rs) :: stubPaths package_path tmp_package rest

/-- The (path, bytes) pairs a single member package contributes to the
skeleton, following the spec's output contract: its manifest re-rooted from
the workspace root to the destination carrying the manifest's bytes, and one
zero-length entry per target at the source path re-rooted from the manifest
directory to the destination package directory. -/
def packageKeyVals (workspace_root destination : Path) (fs : FS) (member : Package) :
    List (Path × Bytes) :=
  match stripBase workspace_root member.manifest_path with
  | none => []
  | some rel =>
    (destination ++ rel, (fs.files member.manifest_path).getD []) ::
      (stubPaths member.manifest_path.dropLast ((destination ++ rel).dropLast) member.targets).map
        (fun k => (k, []))

/-- Concatenated contributions of a package list. -/
def plansOf (workspace_root destination : Path) (fs : FS) : List Package → List (Path × Bytes)
  | [] => []
  | p :: rest =>
    packageKeyVals workspace_root destination fs p ++ plansOf workspace_root destination fs rest

/-- The spec's intended skeleton tree (§3 invariant, §6 output contract), as
an association list: one lockfile at the destination root with the source
lockfile's bytes, then the member packages' manifests and zero-length stubs.
Packages whose id is not in the member set contribute nothing. -/
def specTree (metadata : Metadata) (destination : Path) (fs : FS) : List (Path × Bytes) :=
  (destination ++ ["Cargo.lock"],
      (fs.files (metadata.workspace_root ++ ["Cargo.lock"])).getD []) ::
    plansOf metadata.workspace_root destination fs (membersOf metadata)

/-- The spec's path-containment invariant for one package (§3): the manifest
is a strict descendant of the workspace root and every target's source is a
strict descendant of the package's manifest directory. -/
def strictPackage (workspace_root : Path) (p : Package) : Bool :=
  match stripBase workspace_root p.manifest_path with
  | none => false
  | some rel =>
    !rel.isEmpty &&
      p.targets.all (fun t =>
        match stripBase p.manifest_path.dropLast t.src_path with
        | none => false
        | some rs => !rs.isEmpty)

/-- The set of paths `initialize_fake_workspace` ever reads: the workspace
lockfile and the member manifests. -/
def readPaths (metadata : Metadata) : List Path :=
  (metadata.workspace_root ++ ["Cargo.lock"]) ::
    (membersOf metadata).map (fun p => p.manifest_path)

/-! ## Concrete fixtures

A small concrete workspace in the shape of the spec's end-to-end scenario
(root `/ws`, members `a` and `b`, a non-member registry dependency `c`),
plus variants exercising boundary behaviours. -/

/-- Member package `a` with two build targets. -/
def exA : Package :=
  { id := "a 0.1.0", manifest_path := ["ws", "a", "Cargo.toml"],
    targets := [{ src_path := ["ws", "a", "src", "main.rs"] },
                { src_path := ["ws", "a", "src", "lib.rs"] }] }

/-- Member package `b` with one build target. -/
def exB : Package :=
  { id := "b 0.1.0", manifest_path := ["ws", "b", "Cargo.toml"],
    targets := [{ src_path := ["ws", "b", "src", "lib.rs"] }] }

/-- Non-member dependency package outside the workspace root. -/
def exC : Package :=
  { id := "c 1.0.0", manifest_path := ["reg", "c", "Cargo.toml"],
    targets := [{ src_path := ["reg", "c", "src", "lib.rs"] }] }

/-- The example workspace metadata. -/
def exMeta : Metadata :=
  { workspace_root := ["ws"], workspace_members := ["a 0.1.0", "b 0.1.0"],
    packages := [exA, exB, exC], target_directory := ["ws", "target"] }

/-- The same metadata with the package sequence reordered. -/
def exMetaPerm : Metadata :=
  { exMeta with packages := [exB, exA, exC] }

/-- The example on-disk state: lockfile and the three manifests exist, source
files do not (their contents are never needed); `/`, `/ws` and the empty
directory `/empty` exist. -/
def exFS : FS :=
  { files := fun p =>
      if p = ["ws", "Cargo.lock"] then some [76]
      else if p = ["ws", "a", "Cargo.toml"] then some [10, 1]
      else if p = ["ws", "b", "Cargo.toml"] then some [10, 2]
      else if p = ["reg", "c", "Cargo.toml"] then some [10, 3]
      else none,
    dirs := fun p => p == [] || p == ["ws"] || p == ["empty"] }

/-- Like `exFS` but the real source file of `a`'s first target exists and has
non-empty contents. -/
def exFS3 : FS :=
  { files := fun p =>
      if p = ["ws", "a", "src", "main.rs"] then some [1, 2, 3]
      else exFS.files p,
    dirs := exFS.dirs }

/-- Like `exFS` but with a stale lockfile and a stale source stub already
present under the destination `/dd`. -/
def dirtyFS : FS :=
  { files := fun p =>
      if p = ["dd", "Cargo.lock"] then some [9, 9]
      else if p = ["dd", "a", "src", "main.rs"] then some [7, 7, 7]
      else exFS.files p,
    dirs := fun p => p == [] || p == ["ws"] || p == ["dd"] }

/-- A lockfile whose bytes are not text (NUL, 0xFF, LF, 0x80). -/
def binFS : FS :=
  { files := fun p =>
      if p = ["ws", "Cargo.lock"] then some [0, 255, 10, 128]
      else if p = ["ws", "a", "Cargo.toml"] then some [10, 1]
      else if p = ["ws", "b", "Cargo.toml"] then some [10, 2]
      else none,
    dirs := fun p => p == [] || p == ["ws"] }

/-- A workspace member whose manifest lies outside the workspace root. -/
def badPkg : Package :=
  { id := "x 0.1.0", manifest_path := ["elsewhere", "x", "Cargo.toml"], targets := [] }

/-- Metadata whose single member violates the root-containment invariant. -/
def badMeta : Metadata :=
  { workspace_root := ["ws"], workspace_members := ["x 0.1.0"],
    packages := [badPkg], target_directory := ["ws", "target"] }

/-- A member one of whose targets names the package manifest itself as its
source entry point (containment holds: the manifest is a strict descendant
of the package directory). -/
def selfPkg : Package :=
  { id := "s 0.1.0", manifest_path := ["ws", "s", "Cargo.toml"],
    targets := [{ src_path := ["ws", "s", "Cargo.toml"] }] }

/-- Metadata with `selfPkg` as its only member. -/
def selfMeta : Metadata :=
  { workspace_root := ["ws"], workspace_members := ["s 0.1.0"],
    packages := [selfPkg], target_directory := ["ws", "target"] }

/-- On-disk state for `selfMeta`. -/
def selfFS : FS :=
  { files := fun p =>
      if p = ["ws", "Cargo.lock"] then some [76]
      else if p = ["ws", "s", "Cargo.toml"] then some [10, 9]
      else none,
    dirs := fun p => p == [] || p == ["ws"] }

/-- Member `na` whose target source lives in the nested member `nb`'s
directory and collides with `nb`'s manifest. -/
def nestA : Package :=
  { id := "na 0.1.0", manifest_path := ["ws", "a", "Cargo.toml"],
    targets := [{ src_path := ["ws", "a", "b", "Cargo.toml"] }] }

/-- Nested member `nb`, whose manifest path equals `na`'s target source. -/
def nestB : Package :=
  { id := "nb 0.1.0", manifest_path := ["ws", "a", "b", "Cargo.toml"], targets := [] }

/-- Nested-member metadata, `na` before `nb`. -/
def nestMetaAB : Metadata :=
  { workspace_root := ["ws"], workspace_members := ["na 0.1.0", "nb 0.1.0"],
    packages := [nestA, nestB], target_directory := ["ws", "target"] }

/-- Nested-member metadata, `nb` before `na` (a permutation of
`nestMetaAB.packages`). -/
def nestMetaBA : Metadata :=
  { nestMetaAB with packages := [nestB, nestA] }

/-- On-disk state for the nested-member workspace. -/
def nestFS : FS :=
  { files := fun p =>
      if p = ["ws", "Cargo.lock"] then some [76]
      else if p = ["ws", "a", "Cargo.toml"] then some [1]
      else if p = ["ws", "a", "b", "Cargo.toml"] then some [2]
      else none,
    dirs := fun p => p == [] || p == ["ws"] }

/-! ## Path lemmas -/

theorem stripBase_eq_some (base : Path) : ∀ (p r : Path), stripBase base p = some r ↔ p = base ++ r := by
  induction base with
  | nil =>
    intro p r
    constructor
    · intro h; cases h; rfl
    · intro h; cases h; rfl
  | cons a base ih =>
    intro p r
    cases p with
    | nil =>
      constructor
      · intro h; cases h
      · intro h; cases h
    | cons b p =>
      simp only [stripBase, List.cons_append]
      by_cases h : a = b
      · subst h
        rw [if_pos rfl, ih]
        constructor
        · intro h'; rw [h']
        · intro h'; injection h'
      · rw [if_neg h]
        constructor
        · intro h'; cases h'
        · intro h'; injection h' with h1 _; exact absurd h1.symm h

theorem stripBase_append (base r : Path) : stripBase base (base ++ r) = some r :=
  (stripBase_eq_some base (base ++ r) r).mpr rfl

theorem dropLast_cons_ne (a : String) (l : Path) (h : l ≠ []) :
    (a :: l).dropLast = a :: l.dropLast := by
  cases l with
  | nil => exact absurd rfl h
  | cons b m => rfl

theorem append_ne_nil_right (d r : Path) (h : r ≠ []) : d ++ r ≠ [] :=
  fun hc => h (List.append_eq_nil.mp hc).2

theorem dropLast_append_ne (d : Path) : ∀ (r : Path), r ≠ [] → (d ++ r).dropLast = d ++ r.dropLast := by
  induction d with
  | nil => intro r _; rfl
  | cons a d ih =>
    intro r h
    have hne : d ++ r ≠ [] := append_ne_nil_right d r h
    rw [List.cons_append, dropLast_cons_ne a (d ++ r) hne, ih r h, List.cons_append]

theorem parent_eq_some (p : Path) (h : p ≠ []) : parent p = some p.dropLast := by
  cases p with
  | nil => exact absurd rfl h
  | cons a l => rfl

theorem isUnder_iff (base : Path) : ∀ p, isUnder base p = true ↔ ∃ r, p = base ++ r := by
  induction base with
  | nil =>
    intro p
    constructor
    · intro _; exact ⟨p, rfl⟩
    · intro _; rfl
  | cons a base ih =>
    intro p
    cases p with
    | nil =>
      constructor
      · intro h; cases h
      · rintro ⟨r, hr⟩; cases hr
    | cons b p =>
      simp only [isUnder, Bool.and_eq_true, beq_iff_eq, List.cons_append]
      constructor
      · rintro ⟨hab, hu⟩
        obtain ⟨r, hr⟩ := (ih p).mp hu
        exact ⟨r, by rw [hr, hab]⟩
      · rintro ⟨r, hr⟩
        injection hr with h1 h2
        exact ⟨h1.symm, (ih p).mpr ⟨r, h2⟩⟩

theorem strictUnder_iff (base p : Path) : strictUnder base p = true ↔ ∃ r, r ≠ [] ∧ p = base ++ r := by
  unfold strictUnder
  simp only [Bool.and_eq_true, decide_eq_true_eq, isUnder_iff]
  constructor
  · rintro ⟨⟨r, rfl⟩, hlen⟩
    refine ⟨r, ?_, rfl⟩
    intro hc
    rw [hc, List.append_nil] at hlen
    exact Nat.lt_irrefl _ hlen
  · rintro ⟨r, hr, rfl⟩
    refine ⟨⟨r, rfl⟩, ?_⟩
    rw [List.length_append]
    have : 0 < r.length := List.length_pos.mpr hr
    omega

theorem strictUnder_append (d r : Path) (h : r ≠ []) : strictUnder d (d ++ r) = true :=
  (strictUnder_iff d (d ++ r)).mpr ⟨r, h, rfl⟩

/-! ## Lookup lemmas -/

theorem orElseOpt_some (x : Bytes) (b : Option Bytes) : orElseOpt (some x) b = some x := rfl

theorem orElseOpt_none (b : Option Bytes) : orElseOpt none b = b := rfl

theorem orElseOpt_none_right (a : Option Bytes) : orElseOpt a none = a := by
  cases a <;> rfl

theorem findVal_append (l1 l2 : List (Path × Bytes)) (q : Path) :
    findVal (l1 ++ l2) q = orElseOpt (findVal l1 q) (findVal l2 q) := by
  induction l1 with
  | nil => rfl
  | cons kb rest ih =>
    obtain ⟨k, b⟩ := kb
    simp only [List.cons_append, findVal]
    by_cases h : q = k
    · simp [h, orElseOpt]
    · simp [h, ih]

theorem findVal_eq_none (l : List (Path × Bytes)) (q : Path) :
    findVal l q = none ↔ q ∉ l.map Prod.fst := by
  induction l with
  | nil => simp [findVal]
  | cons kb rest ih =>
    obtain ⟨k, b⟩ := kb
    simp only [findVal, List.map_cons, List.mem_cons]
    by_cases h : q = k
    · simp [h]
    · simp [h, ih]

theorem findVal_mem (l : List (Path × Bytes)) (q : Path) (b : Bytes)
    (h : findVal l q = some b) : (q, b) ∈ l := by
  induction l with
  | nil => cases h
  | cons kb rest ih =>
    obtain ⟨k, c⟩ := kb
    simp only [findVal] at h
    by_cases hq : q = k
    · rw [if_pos hq] at h
      injection h with h'
      subst hq; subst h'
      exact List.mem_cons_self _ _
    · rw [if_neg hq] at h
      exact List.mem_cons_of_mem _ (ih h)

theorem findVal_of_mem_nodup (l : List (Path × Bytes)) (q : Path) (b : Bytes)
    (nd : (l.map Prod.fst).Nodup) (h : (q, b) ∈ l) : findVal l q = some b := by
  induction l with
  | nil => cases h
  | cons kb rest ih =>
    obtain ⟨k, c⟩ := kb
    simp only [List.map_cons, List.nodup_cons] at nd
    rcases List.mem_cons.mp h with h' | h'
    · injection h' with h1 h2
      subst h1; subst h2
      simp [findVal]
    · have hqk : q ≠ k := by
        intro hc
        subst hc
        exact nd.1 (List.mem_map_of_mem Prod.fst h')
      simp only [findVal, if_neg hqk]
      exact ih nd.2 h'

theorem findVal_comm (l1 l2 : List (Path × Bytes)) (q : Path)
    (nd : ((l1 ++ l2).map Prod.fst).Nodup) :
    orElseOpt (findVal l1 q) (findVal l2 q) = orElseOpt (findVal l2 q) (findVal l1 q) := by
  rw [List.map_append] at nd
  have hd := List.disjoint_of_nodup_append nd
  cases h1 : findVal l1 q with
  | none => rw [orElseOpt_none, orElseOpt_none_right]
  | some b1 =>
    cases h2 : findVal l2 q with
    | none => rw [orElseOpt_none, orElseOpt_none_right]
    | some b2 =>
      exfalso
      have m1 : q ∈ l1.map Prod.fst := List.mem_map.mpr ⟨(q, b1), findVal_mem l1 q b1 h1, rfl⟩
      have m2 : q ∈ l2.map Prod.fst := List.mem_map.mpr ⟨(q, b2), findVal_mem l2 q b2 h2, rfl⟩
      exact hd m1 m2

theorem findVal_map_stub (l : List Path) (q : Path) :
    findVal (l.map fun k => (k, ([] : Bytes))) q = if q ∈ l then some [] else none := by
  induction l with
  | nil => simp [findVal]
  | cons k rest ih =>
    simp only [List.map_cons, findVal, List.mem_cons]
    by_cases h : q = k
    · simp [h]
    · simp [h, ih]

theorem findVal_perm (l1 l2 : List (Path × Bytes)) (q : Path) (hp : l1.Perm l2)
    (nd : (l1.map Prod.fst).Nodup) : findVal l1 q = findVal l2 q := by
  have nd2 : (l2.map Prod.fst).Nodup := ((hp.map Prod.fst).nodup_iff).mp nd
  cases h : findVal l1 q with
  | some b =>
    exact (findVal_of_mem_nodup l2 q b nd2 (hp.subset (findVal_mem l1 q b h))).symm
  | none =>
    symm
    rw [findVal_eq_none] at h ⊢
    intro hc
    exact h (((hp.map Prod.fst).mem_iff).mpr hc)

/-! ## Filesystem-operation lemmas -/

theorem create_dir_all_files (p : Path) (fs : FS) : (create_dir_all p fs).files = fs.files := rfl

theorem updateFile_files (fs : FS) (p : Path) (b : Bytes) (q : Path) :
    (updateFile fs p b).files q = if q = p then some b else fs.files q := rfl

/-! ## Strict-containment destructors -/

theorem strictPackage_elim (root : Path) (p : Package) (h : strictPackage root p = true) :
    ∃ rel, stripBase root p.manifest_path = some rel ∧ rel ≠ [] ∧
      ∀ t ∈ p.targets, ∃ rs, stripBase p.manifest_path.dropLast t.src_path = some rs ∧ rs ≠ [] := by
  unfold strictPackage at h
  cases hs : stripBase root p.manifest_path with
  | none => rw [hs] at h; cases h
  | some rel =>
    rw [hs] at h
    simp only [Bool.and_eq_true, List.all_eq_true] at h
    obtain ⟨h1, h2⟩ := h
    refine ⟨rel, rfl, ?_, ?_⟩
    · intro hc; subst hc; simp at h1
    · intro t ht
      have ht' := h2 t ht
      cases hst : stripBase p.manifest_path.dropLast t.src_path with
      | none => rw [hst] at ht'; cases ht'
      | some rs =>
        rw [hst] at ht'
        refine ⟨rs, rfl, ?_⟩
        intro hc; subst hc; simp at ht'

theorem manifest_ne_nil_of_strict (root : Path) (p : Package)
    (h : strictPackage root p = true) : p.manifest_path ≠ [] := by
  obtain ⟨rel, hrel, hne, _⟩ := strictPackage_elim root p h
  have := (stripBase_eq_some root p.manifest_path rel).mp hrel
  rw [this]
  exact append_ne_nil_right root rel hne

/-! ## Target-loop lemmas -/

theorem mem_stubPaths (pp tp : Path) :
    ∀ (ts : List Target) (k : Path),
      k ∈ stubPaths pp tp ts ↔ ∃ t ∈ ts, ∃ rs, stripBase pp t.src_path = some rs ∧ k = tp ++ rs := by
  intro ts
  induction ts with
  | nil => intro k; simp [stubPaths]
  | cons t rest ih =>
    intro k
    cases hs : stripBase pp t.src_path with
    | none =>
      simp only [stubPaths, hs, ih, List.mem_cons]
      constructor
      · rintro ⟨t', ht', rs, hrs, hk⟩; exact ⟨t', Or.inr ht', rs, hrs, hk⟩
      · rintro ⟨t', ht' | ht', rs, hrs, hk⟩
        · subst ht'; rw [hs] at hrs; cases hrs
        · exact ⟨t', ht', rs, hrs, hk⟩
    | some rs =>
      simp only [stubPaths, hs, List.mem_cons, ih]
      constructor
      · rintro (rfl | ⟨t', ht', rs', hrs', hk⟩)
        · exact ⟨t, Or.inl rfl, rs, hs, rfl⟩
        · exact ⟨t', Or.inr ht', rs', hrs', hk⟩
      · rintro ⟨t', ht' | ht', rs', hrs', hk⟩
        · subst ht'; rw [hs] at hrs'; injection hrs' with h'; subst h'; exact Or.inl hk
        · exact Or.inr ⟨t', ht', rs', hrs', hk⟩

theorem processTargets_char (pp tp : Path) :
    ∀ (ts : List Target) (fs : FS),
      (∀ t ∈ ts, ∃ rs, stripBase pp t.src_path = some rs ∧ rs ≠ []) →
      (processTargets pp tp ts fs).1 = .ok () ∧
        ∀ q, (processTargets pp tp ts fs).2.files q =
          if q ∈ stubPaths pp tp ts then some [] else fs.files q := by
  intro ts
  induction ts with
  | nil =>
    intro fs _
    exact ⟨rfl, fun q => by simp [processTargets, stubPaths]⟩
  | cons t rest ih =>
    intro fs h
    obtain ⟨rs, hrs, hne⟩ := h t (List.mem_cons_self t rest)
    have hrest : ∀ t' ∈ rest, ∃ rs', stripBase pp t'.src_path = some rs' ∧ rs' ≠ [] :=
      fun t' ht' => h t' (List.mem_cons_of_mem t ht')
    have hnnil : tp ++ rs ≠ [] := append_ne_nil_right tp rs hne
    simp only [processTargets, hrs, parent_eq_some (tp ++ rs) hnnil]
    obtain ⟨hok, hfiles⟩ :=
      ih (updateFile (create_dir_all ((tp ++ rs).dropLast) fs) (tp ++ rs) []) hrest
    have hstub : stubPaths pp tp (t :: rest) = (tp ++ rs) :: stubPaths pp tp rest := by
      simp [stubPaths, hrs]
    refine ⟨hok, fun q => ?_⟩
    rw [hfiles q, hstub]
    by_cases hq : q ∈ stubPaths pp tp rest
    · rw [if_pos hq, if_pos (List.mem_cons_of_mem _ hq)]
    · rw [if_neg hq, updateFile_files]
      by_cases hq2 : q = tp ++ rs
      · rw [if_pos hq2, if_pos (by rw [hq2]; exact List.mem_cons_self _ _)]
      · rw [if_neg hq2,
          if_neg (by intro hc; rcases List.mem_cons.mp hc with h' | h'; exact hq2 h'; exact hq h')]
        rfl

theorem processTargets_not_ok (pp tp : Path) :
    ∀ (ts : List Target) (fs : FS),
      (∃ t ∈ ts, stripBase pp t.src_path = none) →
      (processTargets pp tp ts fs).1 ≠ .ok () := by
  intro ts
  induction ts with
  | nil => rintro fs ⟨t, ht, _⟩; cases ht
  | cons t rest ih =>
    rintro fs ⟨t', ht', hbad⟩
    cases hs : stripBase pp t.src_path with
    | none => simp [processTargets, hs]
    | some rs =>
      rcases List.mem_cons.mp ht' with rfl | hmem
      · rw [hs] at hbad; cases hbad
      · cases hp : parent (tp ++ rs) with
        | none => simp [processTargets, hs, hp]
        | some dd =>
          simp only [processTargets, hs, hp]
          exact ih _ ⟨t', hmem, hbad⟩

/-! ## Member lemmas -/

theorem processMember_eq_of_strict (root d : Path) (member : Package) (fs : FS)
    (hs : strictPackage root member = true) :
    ∃ rel, stripBase root member.manifest_path = some rel ∧ rel ≠ [] ∧
      processMember root d member fs =
        (match fs.files member.manifest_path with
         | none =>
           (.error (.couldNotCopyManifest member.manifest_path (d ++ rel)),
             create_dir_all ((d ++ rel).dropLast) fs)
         | some bytes =>
           processTargets member.manifest_path.dropLast ((d ++ rel).dropLast) member.targets
             (updateFile (create_dir_all ((d ++ rel).dropLast) fs) (d ++ rel) bytes)) := by
  obtain ⟨rel, hrel, hne, _⟩ := strictPackage_elim root member hs
  have hman : member.manifest_path ≠ [] := manifest_ne_nil_of_strict root member hs
  have hdr : d ++ rel ≠ [] := append_ne_nil_right d rel hne
  refine ⟨rel, hrel, hne, ?_⟩
  simp only [processMember, parent_eq_some member.manifest_path hman, hrel,
    parent_eq_some (d ++ rel) hdr, create_dir_all_files]

theorem packageKeyVals_keys (root d : Path) (fs : FS) (member : Package) (rel : Path)
    (hrel : stripBase root member.manifest_path = some rel) :
    (packageKeyVals root d fs member).map Prod.fst =
      (d ++ rel) ::
        stubPaths member.manifest_path.dropLast ((d ++ rel).dropLast) member.targets := by
  unfold packageKeyVals
  rw [hrel]
  simp only [List.map_cons, List.map_map]
  show ((d ++ rel) :: List.map (fun k => k) _) = _
  rw [List.map_id']

theorem packageKeyVals_congr (root d : Path) (fs1 fs2 : FS) (member : Package)
    (h : fs1.files member.manifest_path = fs2.files member.manifest_path) :
    packageKeyVals root d fs1 member = packageKeyVals root d fs2 member := by
  unfold packageKeyVals
  rw [h]

theorem processMember_char (root d : Path) (member : Package) (fs : FS)
    (hs : strictPackage root member = true)
    (hread : (fs.files member.manifest_path).isSome = true)
    (hnd : ((packageKeyVals root d fs member).map Prod.fst).Nodup) :
    (processMember root d member fs).1 = .ok () ∧
      ∀ q, (processMember root d member fs).2.files q =
        orElseOpt (findVal (packageKeyVals root d fs member) q) (fs.files q) := by
  obtain ⟨rel, hrel, hne, heq⟩ := processMember_eq_of_strict root d member fs hs
  obtain ⟨_, _, _, htargets⟩ := strictPackage_elim root member hs
  cases hmb : fs.files member.manifest_path with
  | none => rw [hmb] at hread; cases hread
  | some mb =>
    rw [heq, hmb]
    obtain ⟨hok, hfiles⟩ :=
      processTargets_char member.manifest_path.dropLast ((d ++ rel).dropLast) member.targets
        (updateFile (create_dir_all ((d ++ rel).dropLast) fs) (d ++ rel) mb) htargets
    rw [packageKeyVals_keys root d fs member rel hrel, List.nodup_cons] at hnd
    refine ⟨hok, fun q => ?_⟩
    rw [hfiles q]
    have hplan : packageKeyVals root d fs member =
        (d ++ rel, mb) ::
          (stubPaths member.manifest_path.dropLast ((d ++ rel).dropLast) member.targets).map
            (fun k => (k, [])) := by
      unfold packageKeyVals
      rw [hrel, hmb]
      rfl
    rw [hplan]
    by_cases hq1 : q ∈ stubPaths member.manifest_path.dropLast ((d ++ rel).dropLast) member.targets
    · have hq2 : q ≠ d ++ rel := by
        intro hc; subst hc; exact hnd.1 hq1
      rw [if_pos hq1]
      simp only [findVal, if_neg hq2, findVal_map_stub, if_pos hq1, orElseOpt_some]
    · rw [if_neg hq1, updateFile_files]
      by_cases hq2 : q = d ++ rel
      · rw [if_pos hq2]
        simp only [findVal, if_pos hq2, orElseOpt_some]
      · rw [if_neg hq2]
        simp only [findVal, if_neg hq2, findVal_map_stub, if_neg hq1, orElseOpt_none]
        rfl

theorem processMember_ok_iff (root d : Path) (member : Package) (fs : FS)
    (hs : strictPackage root member = true) :
    ((processMember root d member fs).1 = .ok () ↔
      (fs.files member.manifest_path).isSome = true) := by
  obtain ⟨rel, hrel, hne, heq⟩ := processMember_eq_of_strict root d member fs hs
  obtain ⟨_, _, _, htargets⟩ := strictPackage_elim root member hs
  cases hmb : fs.files member.manifest_path with
  | none =>
    rw [heq, hmb]
    constructor
    · intro h; cases h
    · intro h; cases h
  | some mb =>
    rw [heq, hmb]
    have hok :=
      (processTargets_char member.manifest_path.dropLast ((d ++ rel).dropLast) member.targets
        (updateFile (create_dir_all ((d ++ rel).dropLast) fs) (d ++ rel) mb) htargets).1
    exact iff_of_true hok rfl

theorem processMember_preserve (root d : Path) (member : Package) (fs : FS)
    (hs : strictPackage root member = true) (q : Path) (hq : strictUnder d q = false) :
    (processMember root d member fs).2.files q = fs.files q := by
  obtain ⟨rel, hrel, hne, heq⟩ := processMember_eq_of_strict root d member fs hs
  obtain ⟨rel', hrel', _, htargets⟩ := strictPackage_elim root member hs
  have hq2 : q ≠ d ++ rel := by
    intro hc
    rw [hc, strictUnder_append d rel hne] at hq
    cases hq
  cases hmb : fs.files member.manifest_path with
  | none => rw [heq, hmb]; rfl
  | some mb =>
    rw [heq, hmb]
    obtain ⟨_, hfiles⟩ :=
      processTargets_char member.manifest_path.dropLast ((d ++ rel).dropLast) member.targets
        (updateFile (create_dir_all ((d ++ rel).dropLast) fs) (d ++ rel) mb) htargets
    rw [hfiles q]
    have hstub :
        q ∉ stubPaths member.manifest_path.dropLast ((d ++ rel).dropLast) member.targets := by
      intro hmem
      obtain ⟨t, ht, rs, hrs, hk⟩ :=
        (mem_stubPaths member.manifest_path.dropLast ((d ++ rel).dropLast) member.targets q).mp hmem
      obtain ⟨rs', hrs', hne'⟩ := htargets t ht
      rw [hrs'] at hrs
      injection hrs with h'
      rw [← h'] at hk
      rw [dropLast_append_ne d rel hne] at hk
      rw [hk, List.append_assoc,
        strictUnder_append d (rel.dropLast ++ rs') (append_ne_nil_right _ rs' hne')] at hq
      cases hq
    rw [if_neg hstub, updateFile_files, if_neg hq2]
    rfl

/-! ## Member-list lemmas -/

theorem orElseOpt_assoc (a b c : Option Bytes) :
    orElseOpt (orElseOpt a b) c = orElseOpt a (orElseOpt b c) := by
  cases a <;> rfl

theorem parent_some (p q : Path) (h : parent p = some q) : q = p.dropLast := by
  cases p with
  | nil => cases h
  | cons a l => injection h with h'; exact h'.symm

theorem plansOf_cons (root d : Path) (fs : FS) (m : Package) (rest : List Package) :
    plansOf root d fs (m :: rest) =
      packageKeyVals root d fs m ++ plansOf root d fs rest := rfl

theorem processMembers_append (root d : Path) :
    ∀ (ms1 ms2 : List Package) (fs : FS),
      processMembers root d (ms1 ++ ms2) fs =
        match processMembers root d ms1 fs with
        | (.error e, fs') => (.error e, fs')
        | (.ok _, fs') => processMembers root d ms2 fs' := by
  intro ms1
  induction ms1 with
  | nil => intro ms2 fs; rfl
  | cons m rest ih =>
    intro ms2 fs
    simp only [List.cons_append, processMembers]
    cases hm : processMember root d m fs with
    | mk r fs' =>
      cases r with
      | error e => rfl
      | ok _ => exact ih ms2 fs'

theorem processMembers_char (root d : Path) (fs0 : FS) :
    ∀ (ms : List Package) (fs : FS),
      (∀ p ∈ ms, strictPackage root p = true) →
      (∀ p ∈ ms, fs.files p.manifest_path = fs0.files p.manifest_path) →
      (∀ p ∈ ms, (fs0.files p.manifest_path).isSome = true) →
      ((plansOf root d fs0 ms).map Prod.fst).Nodup →
      (∀ p ∈ ms, p.manifest_path ∉ (plansOf root d fs0 ms).map Prod.fst) →
      (processMembers root d ms fs).1 = .ok () ∧
        ∀ q, (processMembers root d ms fs).2.files q =
          orElseOpt (findVal (plansOf root d fs0 ms) q) (fs.files q) := by
  intro ms
  induction ms with
  | nil => intro fs _ _ _ _ _; exact ⟨rfl, fun q => rfl⟩
  | cons m rest ih =>
    intro fs hstrict hagree hsome hnd hnr
    have hsm := hstrict m (List.mem_cons_self m rest)
    have hagm : fs.files m.manifest_path = fs0.files m.manifest_path :=
      hagree m (List.mem_cons_self m rest)
    have hsomem := hsome m (List.mem_cons_self m rest)
    have hcong : packageKeyVals root d fs m = packageKeyVals root d fs0 m :=
      packageKeyVals_congr root d fs fs0 m hagm
    rw [plansOf_cons] at hnd hnr
    have hndAB := hnd
    rw [List.map_append] at hndAB
    have hndA : ((packageKeyVals root d fs0 m).map Prod.fst).Nodup := hndAB.of_append_left
    have hndB : ((plansOf root d fs0 rest).map Prod.fst).Nodup := hndAB.of_append_right
    have hread : (fs.files m.manifest_path).isSome = true := by rw [hagm]; exact hsomem
    have hndA' : ((packageKeyVals root d fs m).map Prod.fst).Nodup := by rw [hcong]; exact hndA
    obtain ⟨hok1, hfiles1⟩ := processMember_char root d m fs hsm hread hndA'
    simp only [processMembers]
    cases hm : processMember root d m fs with
    | mk r fs1 =>
      cases r with
      | error e => rw [hm] at hok1; cases hok1
      | ok _ =>
        rw [hm] at hfiles1
        have hnotA : ∀ p ∈ rest,
            p.manifest_path ∉ (packageKeyVals root d fs0 m).map Prod.fst := by
          intro p hp hc
          apply hnr p (List.mem_cons_of_mem m hp)
          rw [List.map_append]
          exact List.mem_append_left _ hc
        have hagree' : ∀ p ∈ rest, fs1.files p.manifest_path = fs0.files p.manifest_path := by
          intro p hp
          rw [hfiles1 p.manifest_path, hcong,
            (findVal_eq_none _ _).mpr (hnotA p hp), orElseOpt_none]
          exact hagree p (List.mem_cons_of_mem m hp)
        have hnr' : ∀ p ∈ rest, p.manifest_path ∉ (plansOf root d fs0 rest).map Prod.fst := by
          intro p hp hc
          apply hnr p (List.mem_cons_of_mem m hp)
          rw [List.map_append]
          exact List.mem_append_right _ hc
        obtain ⟨hok2, hfiles2⟩ := ih fs1
          (fun p hp => hstrict p (List.mem_cons_of_mem m hp))
          hagree'
          (fun p hp => hsome p (List.mem_cons_of_mem m hp))
          hndB hnr'
        refine ⟨hok2, fun q => ?_⟩
        rw [hfiles2 q, hfiles1 q, hcong, plansOf_cons, findVal_append,
          ← orElseOpt_assoc, ← findVal_comm _ _ q hnd, orElseOpt_assoc]

theorem processMembers_ok_iff (root d : Path) :
    ∀ (ms : List Package) (fs : FS),
      (∀ p ∈ ms, strictPackage root p = true) →
      (∀ p ∈ ms, strictUnder d p.manifest_path = false) →
      ((processMembers root d ms fs).1 = .ok () ↔
        ∀ p ∈ ms, (fs.files p.manifest_path).isSome = true) := by
  intro ms
  induction ms with
  | nil =>
    intro fs _ _
    exact iff_of_true rfl (fun p hp => absurd hp (List.not_mem_nil p))
  | cons m rest ih =>
    intro fs hstrict hnu
    have hsm := hstrict m (List.mem_cons_self m rest)
    simp only [processMembers]
    cases hm : processMember root d m fs with
    | mk r fs1 =>
      cases r with
      | error e =>
        have hnotsome : ¬(fs.files m.manifest_path).isSome = true := by
          intro hsome
          have h' := (processMember_ok_iff root d m fs hsm).mpr hsome
          rw [hm] at h'
          cases h'
        constructor
        · intro h; cases h
        · intro h; exact absurd (h m (List.mem_cons_self m rest)) hnotsome
      | ok _ =>
        have hsomem : (fs.files m.manifest_path).isSome = true := by
          have h' := processMember_ok_iff root d m fs hsm
          rw [hm] at h'
          exact h'.mp rfl
        have hpres : ∀ p ∈ rest, fs1.files p.manifest_path = fs.files p.manifest_path := by
          intro p hp
          have h' := processMember_preserve root d m fs hsm p.manifest_path
            (hnu p (List.mem_cons_of_mem m hp))
          rw [hm] at h'
          exact h'
        rw [ih fs1 (fun p hp => hstrict p (List.mem_cons_of_mem m hp))
          (fun p hp => hnu p (List.mem_cons_of_mem m hp))]
        constructor
        · intro h p hp
          rcases List.mem_cons.mp hp with rfl | hp'
          · exact hsomem
          · rw [← hpres p hp']; exact h p hp'
        · intro h p hp
          rw [hpres p hp]
          exact h p (List.mem_cons_of_mem m hp)

theorem processMember_not_ok_of_bad (root d : Path) (member : Package) (fs : FS)
    (hbad : stripBase root member.manifest_path = none ∨
      ∃ t ∈ member.targets, stripBase member.manifest_path.dropLast t.src_path = none) :
    (processMember root d member fs).1 ≠ .ok () := by
  cases hp : parent member.manifest_path with
  | none => simp [processMember, hp]
  | some package_path =>
    cases hs : stripBase root member.manifest_path with
    | none => simp [processMember, hp, hs]
    | some rel =>
      rcases hbad with hbad | hbad
      · rw [hs] at hbad; cases hbad
      · cases hp2 : parent (d ++ rel) with
        | none => simp [processMember, hp, hs, hp2]
        | some tmp_package =>
          simp only [processMember, hp, hs, hp2, create_dir_all_files]
          cases hmb : fs.files member.manifest_path with
          | none => simp
          | some bytes =>
            simp only []
            rw [parent_some member.manifest_path package_path hp]
            exact processTargets_not_ok member.manifest_path.dropLast tmp_package
              member.targets _ hbad

theorem processMembers_not_ok_of_bad (root d : Path) :
    ∀ (ms : List Package) (fs : FS),
      (∃ p ∈ ms, stripBase root p.manifest_path = none ∨
        ∃ t ∈ p.targets, stripBase p.manifest_path.dropLast t.src_path = none) →
      (processMembers root d ms fs).1 ≠ .ok () := by
  intro ms
  induction ms with
  | nil => rintro fs ⟨p, hp, _⟩; cases hp
  | cons m rest ih =>
    rintro fs ⟨p, hp, hbad⟩
    simp only [processMembers]
    cases hm : processMember root d m fs with
    | mk r fs1 =>
      cases r with
      | error e => intro h; cases h
      | ok _ =>
        rcases List.mem_cons.mp hp with rfl | hp'
        · have hok : (processMember root d p fs).1 = .ok () := by rw [hm]
          exact absurd hok (processMember_not_ok_of_bad root d p fs hbad)
        · exact ih fs1 ⟨p, hp', hbad⟩

/-! ## Read-independence lemmas -/

theorem processTargets_transfer (pp tp : Path) :
    ∀ (ts : List Target) (fs1 fs2 : FS),
      (processTargets pp tp ts fs1).1 = (processTargets pp tp ts fs2).1 ∧
        ∀ q, fs1.files q = fs2.files q →
          (processTargets pp tp ts fs1).2.files q = (processTargets pp tp ts fs2).2.files q := by
  intro ts
  induction ts with
  | nil => intro fs1 fs2; exact ⟨rfl, fun q h => h⟩
  | cons t rest ih =>
    intro fs1 fs2
    cases hs : stripBase pp t.src_path with
    | none => simp only [processTargets, hs]; exact ⟨trivial, fun q h => h⟩
    | some rs =>
      cases hp : parent (tp ++ rs) with
      | none => simp only [processTargets, hs, hp]; exact ⟨trivial, fun q h => h⟩
      | some dd =>
        simp only [processTargets, hs, hp]
        obtain ⟨h1, h2⟩ := ih (updateFile (create_dir_all dd fs1) (tp ++ rs) [])
          (updateFile (create_dir_all dd fs2) (tp ++ rs) [])
        refine ⟨h1, fun q hq => ?_⟩
        apply h2
        rw [updateFile_files, updateFile_files]
        by_cases h : q = tp ++ rs
        · simp [h]
        · simp only [if_neg h, create_dir_all_files]
          exact hq

theorem processMember_transfer (root d : Path) (member : Package) (fs1 fs2 : FS)
    (h : fs1.files member.manifest_path = fs2.files member.manifest_path) :
    (processMember root d member fs1).1 = (processMember root d member fs2).1 ∧
      ∀ q, fs1.files q = fs2.files q →
        (processMember root d member fs1).2.files q =
          (processMember root d member fs2).2.files q := by
  cases hp : parent member.manifest_path with
  | none => simp only [processMember, hp]; exact ⟨trivial, fun q hq => hq⟩
  | some pp =>
    cases hs : stripBase root member.manifest_path with
    | none => simp only [processMember, hp, hs]; exact ⟨trivial, fun q hq => hq⟩
    | some rel =>
      cases hp2 : parent (d ++ rel) with
      | none => simp only [processMember, hp, hs, hp2]; exact ⟨trivial, fun q hq => hq⟩
      | some tp =>
        simp only [processMember, hp, hs, hp2, create_dir_all_files]
        rw [h]
        cases hmb : fs2.files member.manifest_path with
        | none => simp only [hmb]; exact ⟨trivial, fun q hq => hq⟩
        | some mb =>
          simp only [hmb]
          obtain ⟨h1, h2⟩ := processTargets_transfer pp tp member.targets
            (updateFile (create_dir_all tp fs1) (d ++ rel) mb)
            (updateFile (create_dir_all tp fs2) (d ++ rel) mb)
          refine ⟨h1, fun q hq => ?_⟩
          apply h2
          rw [updateFile_files, updateFile_files]
          by_cases hqq : q = d ++ rel
          · simp [hqq]
          · simp only [if_neg hqq, create_dir_all_files]
            exact hq

theorem processMembers_transfer (root d : Path) :
    ∀ (ms : List Package) (fs1 fs2 : FS),
      (∀ p ∈ ms, fs1.files p.manifest_path = fs2.files p.manifest_path) →
      (processMembers root d ms fs1).1 = (processMembers root d ms fs2).1 ∧
        ∀ q, fs1.files q = fs2.files q →
          (processMembers root d ms fs1).2.files q =
            (processMembers root d ms fs2).2.files q := by
  intro ms
  induction ms with
  | nil => intro fs1 fs2 _; exact ⟨rfl, fun q h => h⟩
  | cons m rest ih =>
    intro fs1 fs2 hag
    obtain ⟨h1, h2⟩ := processMember_transfer root d m fs1 fs2
      (hag m (List.mem_cons_self m rest))
    simp only [processMembers]
    cases hm1 : processMember root d m fs1 with
    | mk r1 g1 =>
      cases hm2 : processMember root d m fs2 with
      | mk r2 g2 =>
        rw [hm1, hm2] at h1 h2
        cases r1 with
        | error e1 =>
          cases r2 with
          | error e2 => exact ⟨h1, fun q hq => h2 q hq⟩
          | ok _ => cases h1
        | ok _ =>
          cases r2 with
          | error e2 => cases h1
          | ok _ =>
            have hag' : ∀ p ∈ rest, g1.files p.manifest_path = g2.files p.manifest_path :=
              fun p hp => h2 p.manifest_path (hag p (List.mem_cons_of_mem m hp))
            obtain ⟨k1, k2⟩ := ih g1 g2 hag'
            exact ⟨k1, fun q hq => k2 q (h2 q hq)⟩

/-! ## Whole-run lemmas -/

theorem specTree_keys (m : Metadata) (d : Path) (fs : FS) :
    (specTree m d fs).map Prod.fst =
      (d ++ ["Cargo.lock"]) :: (plansOf m.workspace_root d fs (membersOf m)).map Prod.fst := by
  unfold specTree
  rw [List.map_cons]

theorem initialize_char (m : Metadata) (d : Path) (fs : FS)
    (hstrict : ∀ p ∈ membersOf m, strictPackage m.workspace_root p = true)
    (hlock : (fs.files (m.workspace_root ++ ["Cargo.lock"])).isSome = true)
    (hman : ∀ p ∈ membersOf m, (fs.files p.manifest_path).isSome = true)
    (hnd : ((specTree m d fs).map Prod.fst).Nodup)
    (hnr : ∀ p ∈ membersOf m, p.manifest_path ∉ (specTree m d fs).map Prod.fst) :
    (initialize_fake_workspace m d fs).1 = .ok () ∧
      ∀ q, (initialize_fake_workspace m d fs).2.files q =
        orElseOpt (findVal (specTree m d fs) q) (fs.files q) := by
  cases hlb : fs.files (m.workspace_root ++ ["Cargo.lock"]) with
  | none => rw [hlb] at hlock; cases hlock
  | some lb =>
    have hnd' := hnd
    rw [specTree_keys, List.nodup_cons] at hnd'
    obtain ⟨hlknotin, hndplans⟩ := hnd'
    have hnr' : ∀ p ∈ membersOf m,
        p.manifest_path ≠ d ++ ["Cargo.lock"] ∧
          p.manifest_path ∉ (plansOf m.workspace_root d fs (membersOf m)).map Prod.fst := by
      intro p hp
      have h' := hnr p hp
      rw [specTree_keys, List.mem_cons] at h'
      exact ⟨fun hc => h' (Or.inl hc), fun hc => h' (Or.inr hc)⟩
    have hagree : ∀ p ∈ membersOf m,
        (updateFile fs (d ++ ["Cargo.lock"]) lb).files p.manifest_path =
          fs.files p.manifest_path := by
      intro p hp
      rw [updateFile_files, if_neg (hnr' p hp).1]
    simp only [initialize_fake_workspace, hlb]
    obtain ⟨hok, hfiles⟩ := processMembers_char m.workspace_root d fs (membersOf m)
      (updateFile fs (d ++ ["Cargo.lock"]) lb) hstrict hagree hman hndplans
      (fun p hp => (hnr' p hp).2)
    have hspec : specTree m d fs =
        (d ++ ["Cargo.lock"], lb) ::
          plansOf m.workspace_root d fs (membersOf m) := by
      unfold specTree
      rw [hlb]
      rfl
    refine ⟨hok, fun q => ?_⟩
    rw [hfiles q, hspec]
    by_cases hq : q = d ++ ["Cargo.lock"]
    · subst hq
      rw [(findVal_eq_none _ _).mpr hlknotin, orElseOpt_none, updateFile_files, if_pos rfl]
      simp [findVal, orElseOpt]
    · simp only [findVal, if_neg hq]
      rw [updateFile_files, if_neg hq]

theorem initialize_ok_iff (m : Metadata) (d : Path) (fs : FS)
    (hstrict : ∀ p ∈ membersOf m, strictPackage m.workspace_root p = true)
    (hnu : ∀ p ∈ membersOf m, strictUnder d p.manifest_path = false) :
    ((initialize_fake_workspace m d fs).1 = .ok () ↔
      (fs.files (m.workspace_root ++ ["Cargo.lock"])).isSome = true ∧
        ∀ p ∈ membersOf m, (fs.files p.manifest_path).isSome = true) := by
  cases hlb : fs.files (m.workspace_root ++ ["Cargo.lock"]) with
  | none =>
    simp only [initialize_fake_workspace, hlb]
    constructor
    · intro h; cases h
    · rintro ⟨h, _⟩; cases h
  | some lb =>
    simp only [initialize_fake_workspace, hlb]
    rw [processMembers_ok_iff m.workspace_root d (membersOf m) _ hstrict hnu]
    constructor
    · intro h
      refine ⟨rfl, fun p hp => ?_⟩
      have h' := h p hp
      rw [updateFile_files] at h'
      by_cases hc : p.manifest_path = d ++ ["Cargo.lock"]
      · exfalso
        have := hnu p hp
        rw [hc, strictUnder_append d ["Cargo.lock"] (by simp)] at this
        cases this
      · rw [if_neg hc] at h'
        exact h'
    · rintro ⟨_, h⟩ p hp
      rw [updateFile_files]
      by_cases hc : p.manifest_path = d ++ ["Cargo.lock"]
      · rw [if_pos hc]; rfl
      · rw [if_neg hc]; exact h p hp

theorem initialize_not_ok_of_bad (m : Metadata) (d : Path) (fs : FS)
    (hbad : ∃ p ∈ membersOf m, stripBase m.workspace_root p.manifest_path = none ∨
      ∃ t ∈ p.targets, stripBase p.manifest_path.dropLast t.src_path = none) :
    (initialize_fake_workspace m d fs).1 ≠ .ok () := by
  cases hlb : fs.files (m.workspace_root ++ ["Cargo.lock"]) with
  | none => simp [initialize_fake_workspace, hlb]
  | some lb =>
    simp only [initialize_fake_workspace, hlb]
    exact processMembers_not_ok_of_bad m.workspace_root d (membersOf m) _ hbad

theorem initialize_transfer (m : Metadata) (d : Path) (fs1 fs2 : FS)
    (hr : ∀ r ∈ readPaths m, fs1.files r = fs2.files r) :
    (initialize_fake_workspace m d fs1).1 = (initialize_fake_workspace m d fs2).1 ∧
      ∀ q, fs1.files q = fs2.files q →
        (initialize_fake_workspace m d fs1).2.files q =
          (initialize_fake_workspace m d fs2).2.files q := by
  have hlock : fs1.files (m.workspace_root ++ ["Cargo.lock"]) =
      fs2.files (m.workspace_root ++ ["Cargo.lock"]) :=
    hr _ (List.mem_cons_self _ _)
  have hman : ∀ p ∈ membersOf m, fs1.files p.manifest_path = fs2.files p.manifest_path := by
    intro p hp
    exact hr _ (List.mem_cons_of_mem _ (List.mem_map_of_mem _ hp))
  simp only [initialize_fake_workspace]
  rw [hlock]
  cases hmb : fs2.files (m.workspace_root ++ ["Cargo.lock"]) with
  | none => exact ⟨rfl, fun q hq => hq⟩
  | some lb =>
    have hag : ∀ p ∈ membersOf m,
        (updateFile fs1 (d ++ ["Cargo.lock"]) lb).files p.manifest_path =
          (updateFile fs2 (d ++ ["Cargo.lock"]) lb).files p.manifest_path := by
      intro p hp
      rw [updateFile_files, updateFile_files]
      by_cases hc : p.manifest_path = d ++ ["Cargo.lock"]
      · rw [if_pos hc, if_pos hc]
      · rw [if_neg hc, if_neg hc]
        exact hman p hp
    obtain ⟨h1, h2⟩ := processMembers_transfer m.workspace_root d (membersOf m)
      (updateFile fs1 (d ++ ["Cargo.lock"]) lb) (updateFile fs2 (d ++ ["Cargo.lock"]) lb) hag
    refine ⟨h1, fun q hq => ?_⟩
    apply h2
    rw [updateFile_files, updateFile_files]
    by_cases hc : q = d ++ ["Cargo.lock"]
    · rw [if_pos hc, if_pos hc]
    · rw [if_neg hc, if_neg hc]
      exact hq

/-! ## Membership and containment of the spec tree's keys -/

theorem mem_plansOf (root d : Path) (fs : FS) :
    ∀ (ms : List Package) (p : Package) (kv : Path × Bytes),
      p ∈ ms → kv ∈ packageKeyVals root d fs p → kv ∈ plansOf root d fs ms := by
  intro ms
  induction ms with
  | nil => intro p kv hp _; cases hp
  | cons m rest ih =>
    intro p kv hp hkv
    rw [plansOf_cons]
    rcases List.mem_cons.mp hp with rfl | hp'
    · exact List.mem_append_left _ hkv
    · exact List.mem_append_right _ (ih p kv hp' hkv)

theorem plansOf_keys_under (root d : Path) (fs : FS) :
    ∀ (ms : List Package),
      (∀ p ∈ ms, strictPackage root p = true) →
      ∀ k ∈ (plansOf root d fs ms).map Prod.fst, ∃ r, r ≠ [] ∧ k = d ++ r := by
  intro ms
  induction ms with
  | nil => intro _ k hk; cases hk
  | cons m rest ih =>
    intro hstrict k hk
    rw [plansOf_cons, List.map_append] at hk
    rcases List.mem_append.mp hk with hk | hk
    · have hsm := hstrict m (List.mem_cons_self m rest)
      obtain ⟨rel, hrel, hne, htargets⟩ := strictPackage_elim root m hsm
      rw [packageKeyVals_keys root d fs m rel hrel] at hk
      rcases List.mem_cons.mp hk with rfl | hk
      · exact ⟨rel, hne, rfl⟩
      · obtain ⟨t, ht, rs, hrs, hkk⟩ :=
          (mem_stubPaths m.manifest_path.dropLast ((d ++ rel).dropLast) m.targets k).mp hk
        obtain ⟨rs', hrs', hne'⟩ := htargets t ht
        rw [hrs'] at hrs
        injection hrs with h'
        subst h'
        rw [dropLast_append_ne d rel hne, List.append_assoc] at hkk
        exact ⟨rel.dropLast ++ rs', append_ne_nil_right _ rs' hne', hkk⟩
    · exact ih (fun p hp => hstrict p (List.mem_cons_of_mem m hp)) k hk

theorem specTree_keys_under (m : Metadata) (d : Path) (fs : FS)
    (hstrict : ∀ p ∈ membersOf m, strictPackage m.workspace_root p = true) :
    ∀ k ∈ (specTree m d fs).map Prod.fst, ∃ r, r ≠ [] ∧ k = d ++ r := by
  intro k hk
  rw [specTree_keys, List.mem_cons] at hk
  rcases hk with rfl | hk
  · exact ⟨["Cargo.lock"], by simp, rfl⟩
  · exact plansOf_keys_under m.workspace_root d fs (membersOf m) hstrict k hk

theorem manifests_not_in_specTree_of_empty (m : Metadata) (d : Path) (fs : FS)
    (hstrict : ∀ p ∈ membersOf m, strictPackage m.workspace_root p = true)
    (hman : ∀ p ∈ membersOf m, (fs.files p.manifest_path).isSome = true)
    (hempty : ∀ r, fs.files (d ++ r) = none) :
    ∀ p ∈ membersOf m, p.manifest_path ∉ (specTree m d fs).map Prod.fst := by
  intro p hp hc
  obtain ⟨r, _, hk⟩ := specTree_keys_under m d fs hstrict p.manifest_path hc
  have h' := hman p hp
  rw [hk, hempty r] at h'
  cases h'

/-! ## Shift and permutation lemmas -/

theorem stubPaths_shift (pp d tp : Path) :
    ∀ (ts : List Target),
      stubPaths pp (d ++ tp) ts = (stubPaths pp tp ts).map (fun k => d ++ k) := by
  intro ts
  induction ts with
  | nil => rfl
  | cons t rest ih =>
    cases hs : stripBase pp t.src_path with
    | none => simp only [stubPaths, hs, ih]
    | some rs =>
      simp only [stubPaths, hs, List.map_cons, ih, List.append_assoc]

theorem packageKeyVals_shift (root d : Path) (fs : FS) (p : Package)
    (hs : strictPackage root p = true) :
    packageKeyVals root d fs p =
      (packageKeyVals root [] fs p).map (fun kv => (d ++ kv.1, kv.2)) := by
  obtain ⟨rel, hrel, hne, _⟩ := strictPackage_elim root p hs
  unfold packageKeyVals
  rw [hrel]
  simp only [List.map_cons, List.nil_append]
  congr 1
  rw [dropLast_append_ne d rel hne,
    stubPaths_shift p.manifest_path.dropLast d rel.dropLast p.targets,
    List.map_map, List.map_map]
  rfl

theorem plansOf_shift (root d : Path) (fs : FS) :
    ∀ (ms : List Package),
      (∀ p ∈ ms, strictPackage root p = true) →
      plansOf root d fs ms = (plansOf root [] fs ms).map (fun kv => (d ++ kv.1, kv.2)) := by
  intro ms
  induction ms with
  | nil => intro _; rfl
  | cons m rest ih =>
    intro hstrict
    rw [plansOf_cons, plansOf_cons, List.map_append,
      packageKeyVals_shift root d fs m (hstrict m (List.mem_cons_self m rest)),
      ih (fun p hp => hstrict p (List.mem_cons_of_mem m hp))]

theorem specTree_shift (m : Metadata) (d : Path) (fs : FS)
    (hstrict : ∀ p ∈ membersOf m, strictPackage m.workspace_root p = true) :
    specTree m d fs = (specTree m [] fs).map (fun kv => (d ++ kv.1, kv.2)) := by
  unfold specTree
  rw [plansOf_shift m.workspace_root d fs (membersOf m) hstrict]
  rfl

theorem append_left_cancel_path {d a b : Path} (h : d ++ a = d ++ b) : a = b := by
  induction d with
  | nil => exact h
  | cons x d ih =>
    injection h with _ h'
    exact ih h'

theorem findVal_shift (d : Path) :
    ∀ (l : List (Path × Bytes)) (q : Path),
      findVal (l.map fun kv => (d ++ kv.1, kv.2)) (d ++ q) = findVal l q := by
  intro l
  induction l with
  | nil => intro q; rfl
  | cons kv rest ih =>
    intro q
    obtain ⟨k, b⟩ := kv
    simp only [List.map_cons, findVal]
    by_cases h : q = k
    · simp [h]
    · have h2 : d ++ q ≠ d ++ k := fun hc => h (append_left_cancel_path hc)
      simp [h, h2, ih]

theorem specTree_nodup_shift (m : Metadata) (d : Path) (fs : FS)
    (hstrict : ∀ p ∈ membersOf m, strictPackage m.workspace_root p = true)
    (hnd : ((specTree m [] fs).map Prod.fst).Nodup) :
    ((specTree m d fs).map Prod.fst).Nodup := by
  rw [specTree_shift m d fs hstrict, List.map_map]
  have heq : ((specTree m [] fs).map (Prod.fst ∘ fun kv => (d ++ kv.1, kv.2))) =
      ((specTree m [] fs).map Prod.fst).map (fun r => d ++ r) := by
    rw [List.map_map]
    rfl
  rw [heq]
  exact hnd.map (fun a b hab => append_left_cancel_path hab)

theorem plansOf_perm (root d : Path) (fs : FS) {l1 l2 : List Package} (hp : l1.Perm l2) :
    (plansOf root d fs l1).Perm (plansOf root d fs l2) := by
  induction hp with
  | nil => exact List.Perm.refl _
  | cons x _ ih => exact ih.append_left _
  | swap x y l =>
    rw [plansOf_cons, plansOf_cons, plansOf_cons, plansOf_cons,
      ← List.append_assoc, ← List.append_assoc]
    exact List.perm_append_comm.append_right _
  | trans _ _ ih1 ih2 => exact ih1.trans ih2

/-! ## Claim theorems -/

/-- C1 counterexample: a workspace with a member whose manifest path is not
under the workspace root.  Materialization terminates with the panic outcome
`Err.abortNoContext` — a process abort carrying no offending-path context
(exit status 101) — not with a reported `PathNotUnderBaseError`.  This
refutes the claim that such inputs "never" end in a process abort without
context. -/
theorem C1_counterexample :
    stripBase badMeta.workspace_root badPkg.manifest_path = none ∧
      (initialize_fake_workspace badMeta ["dest"] exFS).1 = .error .abortNoContext ∧
      exitCode (initialize_fake_workspace badMeta ["dest"] exFS).1 = 101 :=
  ⟨by decide, rfl, rfl⟩

/-- C1 (amended): when some member's manifest path does not strip against the
workspace root or some target's source path does not strip against its
package directory, materialization never succeeds (no silent pass-through),
but the failure is a panic (`unwrap` abort, `Err.abortNoContext`, no
offending-path context) rather than a reported `PathNotUnderBaseError`; in
particular when the first member's manifest is the offending path the run
ends exactly in the panic outcome. -/
theorem C1_no_silent_pass_through (m : Metadata) (d : Path) (fs : FS) :
    ((∃ p ∈ membersOf m, stripBase m.workspace_root p.manifest_path = none ∨
        ∃ t ∈ p.targets, stripBase p.manifest_path.dropLast t.src_path = none) →
      (initialize_fake_workspace m d fs).1 ≠ .ok ()) ∧
    (∀ (p : Package) (rest : List Package), membersOf m = p :: rest →
      (fs.files (m.workspace_root ++ ["Cargo.lock"])).isSome = true →
      p.manifest_path ≠ [] →
      stripBase m.workspace_root p.manifest_path = none →
      (initialize_fake_workspace m d fs).1 = .error .abortNoContext) := by
  constructor
  · exact initialize_not_ok_of_bad m d fs
  · intro p rest hmem hlock hne hstrip
    cases hlb : fs.files (m.workspace_root ++ ["Cargo.lock"]) with
    | none => rw [hlb] at hlock; cases hlock
    | some lb =>
      simp [initialize_fake_workspace, hlb, hmem, processMembers, processMember,
        parent_eq_some p.manifest_path hne, hstrip]

/-- C1 witness: the amended theorem applied to the concrete bad workspace. -/
theorem C1_witness :
    (initialize_fake_workspace badMeta ["w1"] exFS).1 ≠ .ok () ∧
      (initialize_fake_workspace badMeta ["w1"] exFS).1 = .error .abortNoContext :=
  ⟨(C1_no_silent_pass_through badMeta ["w1"] exFS).1 (by decide),
    (C1_no_silent_pass_through badMeta ["w1"] exFS).2 badPkg [] (by decide) (by decide)
      (by decide) (by decide)⟩

/-- C2 counterexample: a member whose target source path equals its own
manifest path satisfies every containment precondition (the source is a
strict descendant of the package directory), the destination is empty, and
materialization succeeds — but the destination then holds a zero-length file
where the claim requires a byte-identical manifest copy: the stub write
overwrites the manifest copy.  So the destination does not contain "exactly"
the claimed tree for every containment-valid metadata. -/
theorem C2_counterexample :
    strictPackage selfMeta.workspace_root selfPkg = true ∧
      selfFS.files ["ws", "s", "Cargo.toml"] = some [10, 9] ∧
      (initialize_fake_workspace selfMeta ["d"] selfFS).1 = .ok () ∧
      (initialize_fake_workspace selfMeta ["d"] selfFS).2.files ["d", "s", "Cargo.toml"] =
        some [] :=
  ⟨by decide, by decide, rfl, by decide⟩

/-- C2 (amended): for containment-valid metadata, an empty destination, and
pairwise-distinct computed output paths (`specTree` keys nodup — the spec's
"disjoint by construction" reading), a successful materialization fills the
destination with exactly the spec tree: one lockfile at the destination
root, one manifest copy per member at the re-rooted manifest path, one
zero-length stub per target at the re-rooted source path, nothing for
non-member packages and no other files at all (`findVal` of the spec tree,
`none` elsewhere). -/
theorem C2_exact_tree (m : Metadata) (d : Path) (fs : FS)
    (hstrict : ∀ p ∈ membersOf m, strictPackage m.workspace_root p = true)
    (hlock : (fs.files (m.workspace_root ++ ["Cargo.lock"])).isSome = true)
    (hman : ∀ p ∈ membersOf m, (fs.files p.manifest_path).isSome = true)
    (hempty : ∀ r : Path, fs.files (d ++ r) = none)
    (hnd : ((specTree m d fs).map Prod.fst).Nodup) :
    (initialize_fake_workspace m d fs).1 = .ok () ∧
      (∀ r : Path, (initialize_fake_workspace m d fs).2.files (d ++ r) =
        findVal (specTree m d fs) (d ++ r)) ∧
      (∀ p ∈ membersOf m, ∀ rel, stripBase m.workspace_root p.manifest_path = some rel →
        (initialize_fake_workspace m d fs).2.files (d ++ rel) = fs.files p.manifest_path) := by
  have hnr := manifests_not_in_specTree_of_empty m d fs hstrict hman hempty
  obtain ⟨hok, hfiles⟩ := initialize_char m d fs hstrict hlock hman hnd hnr
  refine ⟨hok, fun r => ?_, ?_⟩
  · rw [hfiles (d ++ r), hempty r, orElseOpt_none_right]
  · intro p hp rel hrel
    cases hmb : fs.files p.manifest_path with
    | none =>
      have h' := hman p hp
      rw [hmb] at h'
      cases h'
    | some mb =>
      have hmem : (d ++ rel, mb) ∈ specTree m d fs := by
        unfold specTree
        refine List.mem_cons_of_mem _
          (mem_plansOf m.workspace_root d fs (membersOf m) p _ hp ?_)
        unfold packageKeyVals
        rw [hrel, hmb]
        exact List.mem_cons_self _ _
      rw [hfiles (d ++ rel), findVal_of_mem_nodup _ _ _ hnd hmem, orElseOpt_some]

/-- C2 witness: the amended theorem applied to the concrete example
workspace and an empty destination. -/
theorem C2_witness :
    (initialize_fake_workspace exMeta ["skel2"] exFS).1 = .ok () ∧
      (initialize_fake_workspace exMeta ["skel2"] exFS).2.files
          (["skel2"] ++ ["a", "src", "lib.rs"]) =
        findVal (specTree exMeta ["skel2"] exFS) (["skel2"] ++ ["a", "src", "lib.rs"]) ∧
      (initialize_fake_workspace exMeta ["skel2"] exFS).2.files
          (["skel2"] ++ ["b", "Cargo.toml"]) = exFS.files exB.manifest_path := by
  have h := C2_exact_tree exMeta ["skel2"] exFS (by decide) (by decide) (by decide)
    (by intro r; simp [exFS]) (by decide)
  exact ⟨h.1, h.2.1 ["a", "src", "lib.rs"], h.2.2 exB (by decide) ["b", "Cargo.toml"] (by decide)⟩

/-- C3: (i) the run reads the filesystem only at the lockfile and member
manifest paths (`readPaths`): two states agreeing there produce the same
outcome and agree afterwards wherever they agreed before — the target source
files are never opened, whatever their size, content or existence; (ii) under
the validity hypotheses, the file produced at every re-rooted target source
path is exactly the zero-length `some []`. -/
theorem C3_zero_stub_never_reads_source :
    (∀ (m : Metadata) (d : Path) (fs1 fs2 : FS),
      (∀ r ∈ readPaths m, fs1.files r = fs2.files r) →
      (initialize_fake_workspace m d fs1).1 = (initialize_fake_workspace m d fs2).1 ∧
        ∀ q, fs1.files q = fs2.files q →
          (initialize_fake_workspace m d fs1).2.files q =
            (initialize_fake_workspace m d fs2).2.files q) ∧
    (∀ (m : Metadata) (d : Path) (fs : FS),
      (∀ p ∈ membersOf m, strictPackage m.workspace_root p = true) →
      (fs.files (m.workspace_root ++ ["Cargo.lock"])).isSome = true →
      (∀ p ∈ membersOf m, (fs.files p.manifest_path).isSome = true) →
      ((specTree m d fs).map Prod.fst).Nodup →
      (∀ p ∈ membersOf m, p.manifest_path ∉ (specTree m d fs).map Prod.fst) →
      ∀ p ∈ membersOf m, ∀ t ∈ p.targets, ∀ rel rs,
        stripBase m.workspace_root p.manifest_path = some rel →
        stripBase p.manifest_path.dropLast t.src_path = some rs →
        (initialize_fake_workspace m d fs).2.files ((d ++ rel).dropLast ++ rs) = some []) := by
  constructor
  · exact initialize_transfer
  · intro m d fs hstrict hlock hman hnd hnr p hp t ht rel rs hrel hrs
    obtain ⟨_, hfiles⟩ := initialize_char m d fs hstrict hlock hman hnd hnr
    rw [hfiles]
    have hmem : ((d ++ rel).dropLast ++ rs, ([] : Bytes)) ∈ specTree m d fs := by
      unfold specTree
      refine List.mem_cons_of_mem _
        (mem_plansOf m.workspace_root d fs (membersOf m) p _ hp ?_)
      unfold packageKeyVals
      rw [hrel]
      refine List.mem_cons_of_mem _ ?_
      refine List.mem_map.mpr ⟨(d ++ rel).dropLast ++ rs, ?_, rfl⟩
      exact (mem_stubPaths _ _ _ _).mpr ⟨t, ht, rs, hrs, rfl⟩
    rw [findVal_of_mem_nodup _ _ _ hnd hmem, orElseOpt_some]

/-- C3 witness: `exFS` (no source file on disk) and `exFS3` (the source file
exists with bytes `[1,2,3]`) agree on `readPaths`, so the run's outcome is
identical, and the produced stub is zero-length. -/
theorem C3_witness :
    (initialize_fake_workspace exMeta ["w3"] exFS).1 =
        (initialize_fake_workspace exMeta ["w3"] exFS3).1 ∧
      (initialize_fake_workspace exMeta ["w3"] exFS3).2.files
        ((["w3"] ++ ["a", "Cargo.toml"]).dropLast ++ ["src", "main.rs"]) = some [] :=
  ⟨(C3_zero_stub_never_reads_source.1 exMeta ["w3"] exFS exFS3 (by decide)).1,
    C3_zero_stub_never_reads_source.2 exMeta ["w3"] exFS3 (by decide) (by decide) (by decide)
      (by decide) (by decide) exA (by decide) ⟨["ws", "a", "src", "main.rs"]⟩ (by decide)
      ["a", "Cargo.toml"] ["src", "main.rs"] (by decide) (by decide)⟩

/-- C4: the lockfile written at the destination root is byte-identical to the
source lockfile, for every byte sequence `B` (including non-text bytes). -/
theorem C4_lockfile_byte_identical (m : Metadata) (d : Path) (fs : FS) (B : Bytes)
    (hstrict : ∀ p ∈ membersOf m, strictPackage m.workspace_root p = true)
    (hlockB : fs.files (m.workspace_root ++ ["Cargo.lock"]) = some B)
    (hman : ∀ p ∈ membersOf m, (fs.files p.manifest_path).isSome = true)
    (hnd : ((specTree m d fs).map Prod.fst).Nodup)
    (hnr : ∀ p ∈ membersOf m, p.manifest_path ∉ (specTree m d fs).map Prod.fst) :
    (initialize_fake_workspace m d fs).1 = .ok () ∧
      (initialize_fake_workspace m d fs).2.files (d ++ ["Cargo.lock"]) = some B := by
  have hlock : (fs.files (m.workspace_root ++ ["Cargo.lock"])).isSome = true := by
    rw [hlockB]; rfl
  obtain ⟨hok, hfiles⟩ := initialize_char m d fs hstrict hlock hman hnd hnr
  refine ⟨hok, ?_⟩
  rw [hfiles]
  have hmem : (d ++ ["Cargo.lock"], B) ∈ specTree m d fs := by
    unfold specTree
    rw [hlockB]
    exact List.mem_cons_self _ _
  rw [findVal_of_mem_nodup _ _ _ hnd hmem, orElseOpt_some]

/-- C4 witness: a binary-unsafe lockfile `[0, 255, 10, 128]` is copied
byte-identically. -/
theorem C4_witness :
    (initialize_fake_workspace exMeta ["w4"] binFS).1 = .ok () ∧
      (initialize_fake_workspace exMeta ["w4"] binFS).2.files (["w4"] ++ ["Cargo.lock"]) =
        some [0, 255, 10, 128] :=
  C4_lockfile_byte_identical exMeta ["w4"] binFS [0, 255, 10, 128] (by decide) (by decide)
    (by decide) (by decide) (by decide)

/-- C5 counterexample: the skeleton succeeds, cargo is launched and exits
with status 2, yet the tool's own exit status is the generic failure 1
(`bail!("cargo command failed")`), not the propagated 2.  This refutes the
claim's "exits with that same exit status, propagated unchanged". -/
theorem C5_counterexample :
    (main_forward exMeta ["tmp5"] exFS (some 2)).launched = true ∧
      (main_forward exMeta ["tmp5"] exFS (some 2)).result = .error .cargoCommandFailed ∧
      exitCode (main_forward exMeta ["tmp5"] exFS (some 2)).result = 1 :=
  ⟨rfl, rfl, rfl⟩

/-- C5 (amended): in forwarding mode, if the skeleton step fails the build
tool is never launched; if the launched build tool exits with a non-zero
status, the tool fails with the generic error `cargoCommandFailed` and exit
status 1 — the build tool's exit status is not propagated. -/
theorem C5_no_launch_on_failure_generic_exit (m : Metadata) (tmp : Path) (fs : FS)
    (st : Option Nat) :
    ((initialize_fake_workspace m tmp fs).1 ≠ .ok () →
      (main_forward m tmp fs st).launched = false) ∧
    (∀ s, st = some s → s ≠ 0 → (initialize_fake_workspace m tmp fs).1 = .ok () →
      (main_forward m tmp fs st).result = .error .cargoCommandFailed ∧
        exitCode (main_forward m tmp fs st).result = 1) := by
  constructor
  · intro h
    unfold main_forward
    cases hi : initialize_fake_workspace m tmp fs with
    | mk r g =>
      cases r with
      | error e => rfl
      | ok u => exact absurd (by rw [hi]) h
  · intro s hs hsne hok
    subst hs
    unfold main_forward
    cases hi : initialize_fake_workspace m tmp fs with
    | mk r g =>
      cases r with
      | error e => rw [hi] at hok; cases hok
      | ok u =>
        simp only [if_neg hsne]
        exact ⟨trivial, rfl⟩

/-- C5 witness: the amended theorem at concrete inputs — the bad workspace's
skeleton failure prevents the launch, and a cargo exit status of 7 becomes
the tool's generic failure status 1. -/
theorem C5_witness :
    (main_forward badMeta ["tmp5w"] exFS (some 0)).launched = false ∧
      (main_forward exMeta ["tmp5w"] exFS (some 7)).result = .error .cargoCommandFailed ∧
      exitCode (main_forward exMeta ["tmp5w"] exFS (some 7)).result = 1 :=
  ⟨(C5_no_launch_on_failure_generic_exit badMeta ["tmp5w"] exFS (some 0)).1
      (by intro h; cases h),
    ((C5_no_launch_on_failure_generic_exit exMeta ["tmp5w"] exFS (some 7)).2 7 rfl
      (by decide) rfl).1,
    ((C5_no_launch_on_failure_generic_exit exMeta ["tmp5w"] exFS (some 7)).2 7 rfl
      (by decide) rfl).2⟩

/-- C6 counterexample: with nested member packages whose output paths
collide (member `na`'s stub path equals member `nb`'s re-rooted manifest
path), reordering the package sequence changes the bytes at the same
destination-relative path: `na` before `nb` leaves `nb`'s manifest bytes
`[2]`, `nb` before `na` leaves the zero-length stub.  Both destinations are
empty and both runs succeed, so the claim's unconditional order-insensitivity
fails. -/
theorem C6_counterexample :
    (initialize_fake_workspace nestMetaAB ["d1"] nestFS).1 = .ok () ∧
      (initialize_fake_workspace nestMetaBA ["d2"] nestFS).1 = .ok () ∧
      (initialize_fake_workspace nestMetaAB ["d1"] nestFS).2.files
        ["d1", "a", "b", "Cargo.toml"] = some [2] ∧
      (initialize_fake_workspace nestMetaBA ["d2"] nestFS).2.files
        ["d2", "a", "b", "Cargo.toml"] = some [] :=
  ⟨rfl, rfl, by decide, by decide⟩

/-- C6 (amended): materialization is deterministic and order-insensitive
provided the computed output paths are pairwise distinct (the spec's
"disjoint by construction" premise): for metadata `m2` equal to `m` up to a
permutation of the package sequence and two empty destinations, both runs
succeed and the two destination trees agree at every destination-relative
path (hence identical relative path sets, identical lockfile/manifest bytes,
and zero-length stubs in both, by C2/C3's characterization of each tree). -/
theorem C6_deterministic_order_insensitive (m m2 : Metadata) (d1 d2 : Path) (fs : FS)
    (hroot : m2.workspace_root = m.workspace_root)
    (hmem : m2.workspace_members = m.workspace_members)
    (hperm : m2.packages.Perm m.packages)
    (hstrict : ∀ p ∈ membersOf m, strictPackage m.workspace_root p = true)
    (hlock : (fs.files (m.workspace_root ++ ["Cargo.lock"])).isSome = true)
    (hman : ∀ p ∈ membersOf m, (fs.files p.manifest_path).isSome = true)
    (hnd0 : ((specTree m [] fs).map Prod.fst).Nodup)
    (hempty1 : ∀ r : Path, fs.files (d1 ++ r) = none)
    (hempty2 : ∀ r : Path, fs.files (d2 ++ r) = none) :
    (initialize_fake_workspace m d1 fs).1 = .ok () ∧
      (initialize_fake_workspace m2 d2 fs).1 = .ok () ∧
      ∀ r : Path,
        (initialize_fake_workspace m d1 fs).2.files (d1 ++ r) =
          (initialize_fake_workspace m2 d2 fs).2.files (d2 ++ r) := by
  have hmembers : (membersOf m2).Perm (membersOf m) := by
    unfold membersOf
    rw [hmem]
    exact hperm.filter _
  have hstrict2 : ∀ p ∈ membersOf m2, strictPackage m2.workspace_root p = true := by
    intro p hp
    rw [hroot]
    exact hstrict p (hmembers.subset hp)
  have hlock2 : (fs.files (m2.workspace_root ++ ["Cargo.lock"])).isSome = true := by
    rw [hroot]; exact hlock
  have hman2 : ∀ p ∈ membersOf m2, (fs.files p.manifest_path).isSome = true :=
    fun p hp => hman p (hmembers.subset hp)
  have hspecperm : (specTree m2 [] fs).Perm (specTree m [] fs) := by
    unfold specTree
    rw [hroot]
    exact (plansOf_perm m.workspace_root [] fs hmembers).cons _
  have hnd02 : ((specTree m2 [] fs).map Prod.fst).Nodup :=
    ((hspecperm.map Prod.fst).nodup_iff).mpr hnd0
  have hnd1 : ((specTree m d1 fs).map Prod.fst).Nodup :=
    specTree_nodup_shift m d1 fs hstrict hnd0
  have hnd2 : ((specTree m2 d2 fs).map Prod.fst).Nodup :=
    specTree_nodup_shift m2 d2 fs hstrict2 hnd02
  have hnr1 := manifests_not_in_specTree_of_empty m d1 fs hstrict hman hempty1
  obtain ⟨hok1, hfiles1⟩ := initialize_char m d1 fs hstrict hlock hman hnd1 hnr1
  have hnr2 := manifests_not_in_specTree_of_empty m2 d2 fs hstrict2 hman2 hempty2
  obtain ⟨hok2, hfiles2⟩ := initialize_char m2 d2 fs hstrict2 hlock2 hman2 hnd2 hnr2
  refine ⟨hok1, hok2, fun r => ?_⟩
  rw [hfiles1, hfiles2, hempty1 r, hempty2 r, orElseOpt_none_right, orElseOpt_none_right,
    specTree_shift m d1 fs hstrict, specTree_shift m2 d2 fs hstrict2,
    findVal_shift, findVal_shift]
  exact (findVal_perm _ _ r hspecperm hnd02).symm

/-- C6 witness: the amended theorem at the concrete example workspace and
its packages-permuted variant, on two distinct empty destinations. -/
theorem C6_witness :
    (initialize_fake_workspace exMeta ["w6a"] exFS).1 = .ok () ∧
      (initialize_fake_workspace exMeta ["w6a"] exFS).2.files
          (["w6a"] ++ ["b", "src", "lib.rs"]) =
        (initialize_fake_workspace exMetaPerm ["w6b"] exFS).2.files
          (["w6b"] ++ ["b", "src", "lib.rs"]) := by
  have h := C6_deterministic_order_insensitive exMeta exMetaPerm ["w6a"] ["w6b"] exFS rfl rfl
    (by decide) (by decide) (by decide) (by decide) (by decide)
    (by intro r; simp [exFS]) (by intro r; simp [exFS])
  exact ⟨h.1, h.2.2 ["b", "src", "lib.rs"]⟩

/-- C7: under the containment preconditions, with no member manifest located
strictly inside the destination, (i) materialization returns success if and
only if the lockfile read and every member's manifest read succeed — in the
model these are exactly the fallible steps: directory creation and the
zero-length stub writes always succeed, and panics are excluded by the
preconditions — and (ii) the member loop is fail-fast with no rollback: for
any split of the member list, processing `ms1 ++ ms2` first processes `ms1`,
and on its first error returns that error together with the filesystem as
already written (nothing of `ms2` is attempted, nothing is rolled back). -/
theorem C7_success_iff_fail_fast_no_rollback (m : Metadata) (d : Path) (fs : FS)
    (hstrict : ∀ p ∈ membersOf m, strictPackage m.workspace_root p = true)
    (hnu : ∀ p ∈ membersOf m, strictUnder d p.manifest_path = false) :
    ((initialize_fake_workspace m d fs).1 = .ok () ↔
      (fs.files (m.workspace_root ++ ["Cargo.lock"])).isSome = true ∧
        ∀ p ∈ membersOf m, (fs.files p.manifest_path).isSome = true) ∧
    (∀ (root dd : Path) (ms1 ms2 : List Package) (g : FS),
      processMembers root dd (ms1 ++ ms2) g =
        match processMembers root dd ms1 g with
        | (.error e, g') => (.error e, g')
        | (.ok _, g') => processMembers root dd ms2 g') :=
  ⟨initialize_ok_iff m d fs hstrict hnu,
    fun root dd ms1 ms2 g => processMembers_append root dd ms1 ms2 g⟩

/-- C7 witness: the success-iff direction at the concrete example workspace
(all reads succeed, so the run succeeds). -/
theorem C7_witness :
    (initialize_fake_workspace exMeta ["w7"] exFS).1 = .ok () :=
  (C7_success_iff_fail_fast_no_rollback exMeta ["w7"] exFS (by decide) (by decide)).1.mpr
    ⟨by decide, by decide⟩

/-- C8 counterexample: `/empty` is an existing empty directory, yet the
explicit-destination branch fails with `could not create destination
directory` (the code's `fs::create_dir` refuses an existing path; its own
flag doc says "The directory must not exists") and materializes nothing —
no lockfile is written.  This refutes the claim that an existing empty
directory is a valid destination. -/
theorem C8_counterexample :
    exFS.dirs ["empty"] = true ∧
      (∀ r : Path, exFS.files (["empty"] ++ r) = none) ∧
      (main_dest exMeta ["empty"] exFS).1 = .error (.couldNotCreateDest ["empty"]) ∧
      (main_dest exMeta ["empty"] exFS).2.files ["empty", "Cargo.lock"] = none :=
  ⟨by decide, by intro r; simp [exFS], rfl, by decide⟩

/-- C8 (amended): the explicit destination must not exist.  If an entry
already exists at the destination (a directory — even an empty one — or a
file), the tool fails with `couldNotCreateDest` and performs no
materialization; only when nothing exists there (and the parent directory
exists) does it create the directory and proceed to materialize into it. -/
theorem C8_dest_must_not_exist (m : Metadata) (dest : Path) (fs : FS) :
    ((fs.dirs dest = true ∨ (fs.files dest).isSome = true) →
      main_dest m dest fs = (.error (.couldNotCreateDest dest), fs)) ∧
    (fs.dirs dest = false → fs.files dest = none →
      ∀ par, parent dest = some par → fs.dirs par = true →
      main_dest m dest fs =
        initialize_fake_workspace m dest
          { fs with dirs := fun q => fs.dirs q || (q == dest) }) := by
  constructor
  · intro h
    have hc : create_dir dest fs = (.error (.couldNotCreateDest dest), fs) := by
      unfold create_dir
      have hcond : (fs.dirs dest || (fs.files dest).isSome) = true := by
        rcases h with h | h <;> simp [h]
      rw [if_pos hcond]
    unfold main_dest
    rw [hc]
  · intro h1 h2 par hpar h3
    have hc : create_dir dest fs =
        (.ok (), { fs with dirs := fun q => fs.dirs q || (q == dest) }) := by
      unfold create_dir
      rw [h1, h2]
      simp only [Option.isSome_none, Bool.or_self, Bool.false_eq_true, if_false, hpar,
        if_pos h3]
    unfold main_dest
    rw [hc]

/-- C8 witness: the amended theorem's two branches at concrete inputs — the
existing `/empty` directory is refused, while the non-existent `/skel`
proceeds to materialization. -/
theorem C8_witness :
    main_dest exMeta ["empty"] exFS = (.error (.couldNotCreateDest ["empty"]), exFS) ∧
      main_dest exMeta ["skel"] exFS =
        initialize_fake_workspace exMeta ["skel"]
          { exFS with dirs := fun q => exFS.dirs q || (q == ["skel"]) } :=
  ⟨(C8_dest_must_not_exist exMeta ["empty"] exFS).1 (Or.inl (by decide)),
    (C8_dest_must_not_exist exMeta ["skel"] exFS).2 (by decide) (by decide) []
      rfl (by decide)⟩

/-- C9: the argument shift of `main` — when the first argument after the
program name is exactly `"prepare"` it is consumed before CLI parsing, so
`cargo prepare ARGS` parses identically to `cargo-prepare ARGS` whenever
`ARGS` does not itself start with the literal `"prepare"`; a trailing
argument `"prepare"` in first position is always consumed. -/
theorem C9_subcommand_shift (cmd : String) :
    (∀ rest : List String, effectiveArgs (cmd :: "prepare" :: rest) = cmd :: rest) ∧
    (∀ args : List String, args.head? ≠ some "prepare" →
      effectiveArgs (cmd :: args) = cmd :: args) := by
  constructor
  · intro rest
    simp [effectiveArgs, shiftArgs]
  · intro args h
    cases args with
    | nil => rfl
    | cons a rest =>
      have ha : a ≠ "prepare" := by
        intro hc
        subst hc
        exact h rfl
      simp [effectiveArgs, shiftArgs, ha]

/-- C9 witness: a subcommand invocation and the equivalent direct invocation
parse to the same effective argument vector. -/
theorem C9_witness :
    effectiveArgs ["cargo-prepare", "prepare", "--dest", "out"] =
        ["cargo-prepare", "--dest", "out"] ∧
      effectiveArgs ["cargo-prepare", "--dest", "out"] =
        ["cargo-prepare", "--dest", "out"] :=
  ⟨(C9_subcommand_shift "cargo-prepare").1 ["--dest", "out"],
    (C9_subcommand_shift "cargo-prepare").2 ["--dest", "out"] (by decide)⟩

/-- C10: `initialize_fake_workspace` never checks that the destination is
empty — there is no emptiness hypothesis here.  Whatever regular files
already exist at the computed lockfile, manifest, or stub output paths, the
run succeeds (no `DestinationConflictError` or any other error is raised for
the conflict) and every planned output path ends up holding the planned
bytes: copies replace pre-existing files and the stub write truncates them
to zero bytes. -/
theorem C10_silent_overwrite (m : Metadata) (d : Path) (fs : FS)
    (hstrict : ∀ p ∈ membersOf m, strictPackage m.workspace_root p = true)
    (hlock : (fs.files (m.workspace_root ++ ["Cargo.lock"])).isSome = true)
    (hman : ∀ p ∈ membersOf m, (fs.files p.manifest_path).isSome = true)
    (hnd : ((specTree m d fs).map Prod.fst).Nodup)
    (hnr : ∀ p ∈ membersOf m, p.manifest_path ∉ (specTree m d fs).map Prod.fst) :
    (initialize_fake_workspace m d fs).1 = .ok () ∧
      ∀ q b, findVal (specTree m d fs) q = some b →
        (initialize_fake_workspace m d fs).2.files q = some b := by
  obtain ⟨hok, hfiles⟩ := initialize_char m d fs hstrict hlock hman hnd hnr
  refine ⟨hok, fun q b hb => ?_⟩
  rw [hfiles q, hb, orElseOpt_some]

/-- C10 witness: with a stale non-empty lockfile `[9,9]` and a stale
non-empty source stub `[7,7,7]` already present under the destination, the
run succeeds and silently overwrites both (the stub is truncated to zero
bytes). -/
theorem C10_witness :
    dirtyFS.files ["dd", "a", "src", "main.rs"] = some [7, 7, 7] ∧
      dirtyFS.files ["dd", "Cargo.lock"] = some [9, 9] ∧
      (initialize_fake_workspace exMeta ["dd"] dirtyFS).1 = .ok () ∧
      (initialize_fake_workspace exMeta ["dd"] dirtyFS).2.files
        ["dd", "a", "src", "main.rs"] = some [] ∧
      (initialize_fake_workspace exMeta ["dd"] dirtyFS).2.files
        ["dd", "Cargo.lock"] = some [76] :=
  ⟨by decide, by decide,
    (C10_silent_overwrite exMeta ["dd"] dirtyFS (by decide) (by decide) (by decide)
      (by decide) (by decide)).1,
    (C10_silent_overwrite exMeta ["dd"] dirtyFS (by decide) (by decide) (by decide)
      (by decide) (by decide)).2 ["dd", "a", "src", "main.rs"] [] (by decide),
    (C10_silent_overwrite exMeta ["dd"] dirtyFS (by decide) (by decide) (by decide)
      (by decide) (by decide)).2 ["dd", "Cargo.lock"] [76] (by decide)⟩

end CargoPrepare
